import Mathlib

/-!
Verification of `src/scripts/build_site.py` (static-site build pipeline for
IFC building models).  The Python source is shallowly embedded: Python
values that can reach `to_jsonable` become the inductive `Value`; a Python
exception is `Except.error ()`; attribute reads that use `getattr` with a
`None` default become `Option`; the per-element extraction loop, the slug
derivation and the orchestrating `main` loop become pure Lean functions
over explicit state.
-/

namespace BuildSite

/-- Model of a Python runtime value as seen by `to_jsonable`.
`entity` is an `ifcopenshell.entity_instance` (its `str` form, which may
raise, and the result of its `id()` method); `obj` is any other object:
its `str` form (`none` when `str` raises) and, when an `item` callable is
present, the outcome of calling it (`Except.error` when the call raises). -/
inductive Value where
  | str (s : String)
  | int (n : Int)
  | float (bits : Nat)
  | bool (b : Bool)
  | null
  | dict (entries : List (Value × Value))
  | list (xs : List Value)
  | tup (xs : List Value)
  | setv (xs : List Value)
  | entity (strForm : Option String) (ident : Option Int)
  | obj (strForm : Option String) (itemFn : Option (Except Unit Value))

mutual
/-- Python `str(v)`.  `Except.error ()` models `__str__` raising.  For
containers the exact rendering is immaterial to every claim; only whether
the conversion succeeds matters, and it fails exactly when the string form
of some embedded `entity`/`obj` is unavailable. -/
def pyStr : Value → Except Unit String
  | .str s => .ok s
  | .int n => .ok (toString n)
  | .float b => .ok ("float#" ++ toString b)
  | .bool b => .ok (if b then "True" else "False")
  | .null => .ok "None"
  | .dict es =>
    match pyStrEntries es with
    | .ok s => .ok ("\x7b" ++ s ++ "\x7d")
    | .error u => .error u
  | .list xs =>
    match pyStrList xs with
    | .ok s => .ok ("[" ++ s ++ "]")
    | .error u => .error u
  | .tup xs =>
    match pyStrList xs with
    | .ok s => .ok ("(" ++ s ++ ")")
    | .error u => .error u
  | .setv xs =>
    match pyStrList xs with
    | .ok s => .ok ("set(" ++ s ++ ")")
    | .error u => .error u
  | .entity so _ =>
    match so with
    | some s => .ok s
    | Option.none => .error ()
  | .obj so _ =>
    match so with
    | some s => .ok s
    | Option.none => .error ()

def pyStrList : List Value → Except Unit String
  | [] => .ok ""
  | x :: xs =>
    match pyStr x with
    | .error u => .error u
    | .ok a =>
      match pyStrList xs with
      | .error u => .error u
      | .ok b => .ok (a ++ ", " ++ b)

def pyStrEntries : List (Value × Value) → Except Unit String
  | [] => .ok ""
  | (k, v) :: es =>
    match pyStr k with
    | .error u => .error u
    | .ok a =>
      match pyStr v with
      | .error u => .error u
      | .ok b =>
        match pyStrEntries es with
        | .error u => .error u
        | .ok c => .ok (a ++ ": " ++ b ++ ", " ++ c)
end

/-- Line 92 of the source: the unprotected final `return str(v)`.  A raise
here propagates out of `to_jsonable` (the `try` block ends at line 91). -/
def strFallback (v : Value) : Except Unit Value :=
  match pyStr v with
  | .ok s => .ok (.str s)
  | .error u => .error u

/-- Line 80 of the source: `getattr(v, "id", lambda: None)()` — the entity
identifier, or Python `None` when the entity has no `id` method. -/
def identValue : Option Int → Value
  | some n => .int n
  | Option.none => .null

mutual
/-- `to_jsonable(v)` from the source, lines 71-92.  `avail` is
`ifcopenshell is not None`.  The branch structure follows the source:
entity instances prefer their short string form, falling back to
`(id ...)` when `str` raises; primitives pass through; dicts recurse
with keys coerced by `str`; list/tuple/set recurse into a list; an object
with a callable `item` is unwrapped once and normalized recursively; any
exception inside the `try` falls through to the final `str(v)`, which is
outside the `try` and may itself raise. -/
def to_jsonable (avail : Bool) : Value → Except Unit Value
  | .entity so ident =>
    if avail then
      match so with
      | some s => .ok (.str s)
      | Option.none => .ok (.dict [(.str "id", identValue ident)])
    else strFallback (.entity so ident)
  | .str s => .ok (.str s)
  | .int n => .ok (.int n)
  | .float b => .ok (.float b)
  | .bool b => .ok (.bool b)
  | .null => .ok .null
  | .dict es =>
    match normEntries avail es with
    | .ok kvs => .ok (.dict kvs)
    | .error _ => strFallback (.dict es)
  | .list xs =>
    match normList avail xs with
    | .ok ys => .ok (.list ys)
    | .error _ => strFallback (.list xs)
  | .tup xs =>
    match normList avail xs with
    | .ok ys => .ok (.list ys)
    | .error _ => strFallback (.tup xs)
  | .setv xs =>
    match normList avail xs with
    | .ok ys => .ok (.list ys)
    | .error _ => strFallback (.setv xs)
  | .obj so (some (.ok w)) =>
    match to_jsonable avail w with
    | .ok r => .ok r
    | .error _ => strFallback (.obj so (some (.ok w)))
  | .obj so (some (.error u)) => strFallback (.obj so (some (.error u)))
  | .obj so Option.none => strFallback (.obj so Option.none)

def normList (avail : Bool) : List Value → Except Unit (List Value)
  | [] => .ok []
  | x :: xs =>
    match to_jsonable avail x with
    | .error u => .error u
    | .ok y =>
      match normList avail xs with
      | .error u => .error u
      | .ok ys => .ok (y :: ys)

def normEntries (avail : Bool) :
    List (Value × Value) → Except Unit (List (Value × Value))
  | [] => .ok []
  | (k, v) :: es =>
    match pyStr k with
    | .error u => .error u
    | .ok ks =>
      match to_jsonable avail v with
      | .error u => .error u
      | .ok w =>
        match normEntries avail es with
        | .error u => .error u
        | .ok rest => .ok ((.str ks, w) :: rest)
end

/-- Whether a value is a Python string. -/
def isStr : Value → Bool
  | .str _ => true
  | _ => false

mutual
/-- JSON-safety of a value: primitives, string-keyed mappings and
sequences only. -/
def jsonSafe : Value → Bool
  | .str _ => true
  | .int _ => true
  | .float _ => true
  | .bool _ => true
  | .null => true
  | .dict es => jsonSafeEntries es
  | .list xs => jsonSafeList xs
  | .tup _ => false
  | .setv _ => false
  | .entity _ _ => false
  | .obj _ _ => false

def jsonSafeList : List Value → Bool
  | [] => true
  | x :: xs => jsonSafe x && jsonSafeList xs

def jsonSafeEntries : List (Value × Value) → Bool
  | [] => true
  | (k, v) :: es => isStr k && jsonSafe v && jsonSafeEntries es
end

mutual
/-- Every `entity`/`obj` node reachable by `str` conversion has a string
form, i.e. no embedded `__str__` raises. -/
def allStrOk : Value → Bool
  | .str _ => true
  | .int _ => true
  | .float _ => true
  | .bool _ => true
  | .null => true
  | .dict es => allStrOkEntries es
  | .list xs => allStrOkList xs
  | .tup xs => allStrOkList xs
  | .setv xs => allStrOkList xs
  | .entity so _ => so.isSome
  | .obj so _ => so.isSome

def allStrOkList : List Value → Bool
  | [] => true
  | x :: xs => allStrOk x && allStrOkList xs

def allStrOkEntries : List (Value × Value) → Bool
  | [] => true
  | (k, v) :: es => allStrOk k && allStrOk v && allStrOkEntries es
end

/-- Whether an embedded Python call returned normally. -/
def exOk {α : Type} : Except Unit α → Bool
  | .ok _ => true
  | .error _ => false

theorem pyStr_ok_of_allStrOk :
    ∀ v : Value, allStrOk v = true → exOk (pyStr v) = true := by
  apply pyStr.induct
    (fun v => allStrOk v = true → exOk (pyStr v) = true)
    (fun xs => allStrOkList xs = true → exOk (pyStrList xs) = true)
    (fun es => allStrOkEntries es = true → exOk (pyStrEntries es) = true)
  all_goals intros
  all_goals simp_all [pyStr, pyStrList, pyStrEntries, allStrOk, allStrOkList,
    allStrOkEntries, exOk]

theorem strFallback_ok_of_allStrOk (v : Value) (h : allStrOk v = true) :
    exOk (strFallback v) = true := by
  have hp := pyStr_ok_of_allStrOk v h
  unfold strFallback
  cases hps : pyStr v <;> simp_all [exOk]

theorem to_jsonable_ok_of_allStrOk (avail : Bool) (v : Value)
    (h : allStrOk v = true) : exOk (to_jsonable avail v) = true := by
  cases v with
  | entity so ident =>
    cases avail with
    | false =>
      have := strFallback_ok_of_allStrOk (.entity so ident) h
      simpa [to_jsonable] using this
    | true =>
      cases so with
      | none => simp_all [allStrOk]
      | some s => simp [to_jsonable, exOk]
  | str s => simp [to_jsonable, exOk]
  | int n => simp [to_jsonable, exOk]
  | float b => simp [to_jsonable, exOk]
  | bool b => simp [to_jsonable, exOk]
  | null => simp [to_jsonable, exOk]
  | dict es =>
    have := strFallback_ok_of_allStrOk (.dict es) h
    cases hne : normEntries avail es <;> simp_all [to_jsonable, exOk]
  | list xs =>
    have := strFallback_ok_of_allStrOk (.list xs) h
    cases hnl : normList avail xs <;> simp_all [to_jsonable, exOk]
  | tup xs =>
    have := strFallback_ok_of_allStrOk (.tup xs) h
    cases hnl : normList avail xs <;> simp_all [to_jsonable, exOk]
  | setv xs =>
    have := strFallback_ok_of_allStrOk (.setv xs) h
    cases hnl : normList avail xs <;> simp_all [to_jsonable, exOk]
  | obj so itf =>
    have hf := strFallback_ok_of_allStrOk (.obj so itf) h
    match itf with
    | some (.ok w) =>
      cases hw : to_jsonable avail w <;> simp_all [to_jsonable, exOk]
    | some (.error u) => simp_all [to_jsonable, exOk]
    | Option.none => simp_all [to_jsonable, exOk]

theorem strFallback_eq_ok (v : Value) (w : Value) :
    strFallback v = .ok w ↔ ∃ s, pyStr v = .ok s ∧ w = .str s := by
  unfold strFallback
  cases hps : pyStr v <;> simp
  constructor
  · intro h; exact h.symm
  · intro h; exact h.symm

theorem identValue_jsonSafe (ident : Option Int) :
    jsonSafe (identValue ident) = true := by
  cases ident <;> simp [identValue, jsonSafe]

theorem isStr_eq_true (k : Value) : isStr k = true ↔ ∃ s, k = .str s := by
  cases k <;> simp [isStr]

theorem to_jsonable_jsonSafe (avail : Bool) :
    ∀ v w, to_jsonable avail v = .ok w → jsonSafe w = true := by
  apply to_jsonable.induct avail
    (fun v => ∀ w, to_jsonable avail v = .ok w → jsonSafe w = true)
    (fun xs => ∀ ys, normList avail xs = .ok ys → jsonSafeList ys = true)
    (fun es => ∀ kvs, normEntries avail es = .ok kvs → jsonSafeEntries kvs = true)
  all_goals intros
  all_goals simp_all [to_jsonable, normList, normEntries, jsonSafe,
    jsonSafeList, jsonSafeEntries, strFallback_eq_ok, identValue_jsonSafe,
    isStr]
  all_goals try subst_vars
  all_goals try (rename_i hex; obtain ⟨s, hps, rfl⟩ := hex)
  all_goals simp_all [jsonSafe, jsonSafeList, jsonSafeEntries,
    identValue, isStr]

theorem to_jsonable_fix_jsonSafe (avail : Bool) :
    ∀ v, jsonSafe v = true → to_jsonable avail v = .ok v := by
  apply to_jsonable.induct avail
    (fun v => jsonSafe v = true → to_jsonable avail v = .ok v)
    (fun xs => jsonSafeList xs = true → normList avail xs = .ok xs)
    (fun es => jsonSafeEntries es = true → normEntries avail es = .ok es)
  all_goals intros
  all_goals simp_all [to_jsonable, normList, normEntries, jsonSafe,
    jsonSafeList, jsonSafeEntries, isStr_eq_true, pyStr]
  all_goals try (rename_i hex; obtain ⟨⟨⟨s, rfl⟩, hv⟩, hes⟩ := hex)
  all_goals simp_all [pyStr]

/-- C3.  The claim as stated is false: `to_jsonable` is not total.  The
final `return str(v)` (source line 92) sits outside the `try`/`except`
block, so an object with no `item` capability whose `__str__` itself
raises makes `to_jsonable` raise.  In the model: an `obj` with no string
form and no `item` member. -/
theorem C3_normalize_not_total_counterexample :
    to_jsonable true (.obj Option.none Option.none) = .error () := rfl

/-- C3 (amended).  `to_jsonable` returns without raising for every input
in which each embedded object/entity has a working string conversion
(unrepresentable inputs degrade to their string representation); it can
raise only when the degradation path's own `str` call raises.  Moreover,
whenever it returns, the result consists only of JSON-safe values:
primitives, string-keyed mappings, and sequences. -/
theorem C3_normalize_total_and_json_safe (avail : Bool) (v : Value) :
    (allStrOk v = true → exOk (to_jsonable avail v) = true) ∧
    (∀ w, to_jsonable avail v = .ok w → jsonSafe w = true) :=
  ⟨to_jsonable_ok_of_allStrOk avail v, to_jsonable_jsonSafe avail v⟩

theorem C3_normalize_total_and_json_safe_witness :
    allStrOk (.dict [(.int 3, .setv [.entity (some "IfcLabel(A)") Option.none])]) = true ∧
    exOk (to_jsonable true (.dict [(.int 3, .setv [.entity (some "IfcLabel(A)") Option.none])])) = true ∧
    to_jsonable true (.dict [(.int 3, .setv [.entity (some "IfcLabel(A)") Option.none])]) =
      .ok (.dict [(.str "3", .list [.str "IfcLabel(A)"])]) ∧
    jsonSafe (.dict [(.str "3", .list [.str "IfcLabel(A)"])]) = true :=
  ⟨rfl,
   (C3_normalize_total_and_json_safe true
      (.dict [(.int 3, .setv [.entity (some "IfcLabel(A)") Option.none])])).1 rfl,
   rfl,
   (C3_normalize_total_and_json_safe true
      (.dict [(.int 3, .setv [.entity (some "IfcLabel(A)") Option.none])])).2
     (.dict [(.str "3", .list [.str "IfcLabel(A)"])]) rfl⟩

/-- C5.  `to_jsonable` is idempotent on its own output: any value it
returns is already JSON-safe, and normalizing a JSON-safe value returns
it unchanged. -/
theorem C5_normalize_idempotent (avail : Bool) (v w : Value)
    (h : to_jsonable avail v = .ok w) : to_jsonable avail w = .ok w :=
  to_jsonable_fix_jsonSafe avail w (to_jsonable_jsonSafe avail v w h)

theorem C5_normalize_idempotent_witness :
    to_jsonable true (.tup [.int 1, .obj Option.none (some (.ok (.bool true)))]) =
      .ok (.list [.int 1, .bool true]) ∧
    to_jsonable true (.list [.int 1, .bool true]) = .ok (.list [.int 1, .bool true]) :=
  ⟨rfl, C5_normalize_idempotent true
    (.tup [.int 1, .obj Option.none (some (.ok (.bool true)))])
    (.list [.int 1, .bool true]) rfl⟩

/-! ## slugify (source lines 40-44) -/

/-- The ASCII character class `[a-z0-9\-_]` that the slug regexes name. -/
def isSlugChar (c : Char) : Bool :=
  ('a' ≤ c && c ≤ 'z') || ('0' ≤ c && c ≤ '9') || c = '-' || c = '_'

/-- The set of characters the first substitution actually keeps.  Its
pattern `[^a-z0-9\-_]+` is compiled with `re.IGNORECASE`, and CPython's
regex engine lets each member of a case-equivalence pair match the other;
the pairs keyed by a letter of `[a-z]` are i with dotless i (U+0131), s
with long s (U+017F) and k with the Kelvin sign (U+212A), so the negated
class does not match those three codepoints either.  (The remaining
equivalence pairs contain no member of the class.) -/
def isKeptChar (c : Char) : Bool :=
  isSlugChar c || c.toNat = 0x131 || c.toNat = 0x17F || c.toNat = 0x212A

/-- The kept characters that can actually reach a slug: the Kelvin sign
cannot, because `str.lower` has already mapped it to `k` before the
substitution runs. -/
def isOutChar (c : Char) : Bool :=
  isSlugChar c || c.toNat = 0x131 || c.toNat = 0x17F

/-- `str.lower()` on the characters that decide the stated properties:
the Kelvin sign lowercases to `k`; elsewhere ASCII lowercasing stands in
for the full Unicode mapping.  The only non-ASCII codepoints whose Python
lowercase lies in the kept class are U+212A and the `lower`-fixed points
U+0131 and U+017F, so every remaining divergence concerns a character
that both mappings send outside the kept class, where the substitution
replaces it with a hyphen either way. -/
def pyLower (c : Char) : Char :=
  if c.toNat = 0x212A then 'k' else c.toLower

/-- `re.sub(r"[^a-z0-9\-_]+", "-", name, flags=re.IGNORECASE)`: each
maximal run of characters outside the kept set becomes a single hyphen.
`inRun` records whether the previous character belonged to such a run
(whose single `'-'` has already been emitted), which is exactly how the
regex engine's maximal-munch replacement behaves character by character. -/
def subBad (inRun : Bool) : List Char → List Char
  | [] => []
  | c :: cs =>
    if isKeptChar c then c :: subBad false cs
    else if inRun then subBad true cs
    else '-' :: subBad true cs

/-- The first substitution applied to a whole string. -/
def subBadRuns (l : List Char) : List Char := subBad false l

/-- `re.sub(r"-+", "-", name)`: collapse each hyphen run to one hyphen;
`prevHyphen` records whether the previous character was part of a hyphen
run whose single `'-'` has already been emitted. -/
def collapseAux (prevHyphen : Bool) : List Char → List Char
  | [] => []
  | c :: cs =>
    if c = '-' then
      if prevHyphen then collapseAux true cs
      else '-' :: collapseAux true cs
    else c :: collapseAux false cs

/-- The second substitution applied to a whole string. -/
def collapseHyphens (l : List Char) : List Char := collapseAux false l

/-- Python `str.strip(c)`: remove every copy of `c` from both ends. -/
def stripChar (c : Char) (l : List Char) : List Char :=
  ((l.dropWhile (fun x => decide (x = c))).reverse.dropWhile
    (fun x => decide (x = c))).reverse

/-- Python `str.strip()` with no argument: remove whitespace from both
ends.  (`Char.isWhitespace` is narrower than Python's Unicode whitespace
set, but any whitespace that survives is outside the slug class and is
removed by the substitution step, so the difference never reaches the
output.) -/
def pyStrip (l : List Char) : List Char :=
  ((l.dropWhile Char.isWhitespace).reverse.dropWhile Char.isWhitespace).reverse

/-- `slugify(name)` up to the empty-result fallback, on the character
list: strip, lower, substitute, collapse, strip hyphens. -/
def slugCore (s : List Char) : List Char :=
  stripChar '-' (collapseHyphens (subBadRuns ((pyStrip s).map pyLower)))

def slugifyChars (s : List Char) : List Char :=
  if (slugCore s).isEmpty then "modelo".toList else slugCore s

/-- `slugify(name)` from the source (lines 40-44). -/
def slugify (s : String) : String :=
  String.mk (slugifyChars s.data)

/-- "No repeated hyphens": the two-hyphen word is not an infix. -/
def NoTwoHyphens (l : List Char) : Prop :=
  ¬ (['-', '-'] <:+: l)

theorem isSlugChar_ranges (c : Char) (h : isSlugChar c = true) :
    (97 ≤ c.toNat ∧ c.toNat ≤ 122) ∨ (48 ≤ c.toNat ∧ c.toNat ≤ 57) ∨
      c.toNat = 45 ∨ c.toNat = 95 := by
  simp only [isSlugChar, Bool.or_eq_true, Bool.and_eq_true,
    decide_eq_true_eq] at h
  rcases h with ((⟨h1, h2⟩ | ⟨h1, h2⟩) | rfl) | rfl
  · rw [Char.le_def] at h1 h2
    exact Or.inl ⟨h1, h2⟩
  · rw [Char.le_def] at h1 h2
    exact Or.inr (Or.inl ⟨h1, h2⟩)
  · exact Or.inr (Or.inr (Or.inl rfl))
  · exact Or.inr (Or.inr (Or.inr rfl))

theorem isSlugChar_toLower (c : Char) (h : isSlugChar c = true) :
    c.toLower = c := by
  unfold Char.toLower
  rw [if_neg]
  intro hh
  obtain ⟨h1, h2⟩ := hh
  rcases isSlugChar_ranges c h with ⟨a, b⟩ | ⟨a, b⟩ | a | a <;> omega

theorem isSlugChar_not_whitespace (c : Char) (h : isSlugChar c = true) :
    c.isWhitespace = false := by
  simp only [Char.isWhitespace, Bool.or_eq_false_iff, decide_eq_false_iff_not]
  have hr := isSlugChar_ranges c h
  refine ⟨⟨⟨?_, ?_⟩, ?_⟩, ?_⟩ <;> intro he <;> subst he <;> simp_all

theorem isOutChar_cases (c : Char) (h : isOutChar c = true) :
    isSlugChar c = true ∨ c.toNat = 0x131 ∨ c.toNat = 0x17F := by
  simp only [isOutChar, Bool.or_eq_true, decide_eq_true_eq] at h
  rcases h with (h | h) | h
  · exact Or.inl h
  · exact Or.inr (Or.inl h)
  · exact Or.inr (Or.inr h)

theorem isOutChar_kept (c : Char) (h : isOutChar c = true) :
    isKeptChar c = true := by
  simp only [isOutChar, Bool.or_eq_true] at h
  simp only [isKeptChar, Bool.or_eq_true]
  rcases h with (h | h) | h
  · exact Or.inl (Or.inl (Or.inl h))
  · exact Or.inl (Or.inl (Or.inr h))
  · exact Or.inl (Or.inr h)

theorem isOutChar_of_kept (c : Char) (h : isKeptChar c = true)
    (hk : c.toNat ≠ 0x212A) : isOutChar c = true := by
  simp only [isKeptChar, Bool.or_eq_true, decide_eq_true_eq] at h
  simp only [isOutChar, Bool.or_eq_true, decide_eq_true_eq]
  rcases h with ((h | h) | h) | h
  · exact Or.inl (Or.inl h)
  · exact Or.inl (Or.inr h)
  · exact Or.inr h
  · exact absurd h hk

theorem isOutChar_pyLower (c : Char) (h : isOutChar c = true) :
    pyLower c = c := by
  unfold pyLower
  rcases isOutChar_cases c h with hs | hn | hn
  · rw [if_neg ?_]
    · exact isSlugChar_toLower c hs
    · rcases isSlugChar_ranges c hs with ⟨a, b⟩ | ⟨a, b⟩ | a | a <;> omega
  · rw [if_neg (by omega)]
    unfold Char.toLower
    rw [if_neg (by omega)]
  · rw [if_neg (by omega)]
    unfold Char.toLower
    rw [if_neg (by omega)]

theorem isOutChar_not_whitespace (c : Char) (h : isOutChar c = true) :
    c.isWhitespace = false := by
  rcases isOutChar_cases c h with hs | hn | hn
  · exact isSlugChar_not_whitespace c hs
  all_goals
    simp only [Char.isWhitespace, Bool.or_eq_false_iff,
      decide_eq_false_iff_not]
    refine ⟨⟨⟨?_, ?_⟩, ?_⟩, ?_⟩ <;> intro he <;> subst he <;> simp_all

theorem toNat_ofNat_add32 (n : Nat) (h1 : 65 ≤ n) (h2 : n ≤ 90) :
    (Char.ofNat (n + 32)).toNat = n + 32 := by
  have hv : (n + 32).isValidChar := Or.inl (by omega)
  rw [Char.ofNat, dif_pos hv]
  simp [Char.ofNatAux, Char.toNat, UInt32.toNat]

theorem pyLower_ne_kelvin (c : Char) : (pyLower c).toNat ≠ 0x212A := by
  unfold pyLower
  by_cases h : c.toNat = 0x212A
  · rw [if_pos h]
    decide
  · rw [if_neg h]
    unfold Char.toLower
    by_cases hu : 65 ≤ c.toNat ∧ c.toNat ≤ 90
    · rw [if_pos hu]
      rw [toNat_ofNat_add32 c.toNat hu.1 hu.2]
      omega
    · rw [if_neg hu]
      exact h

theorem dropWhile_eq_self_of_all {p : Char → Bool} {l : List Char}
    (h : ∀ x ∈ l, p x = false) : l.dropWhile p = l := by
  cases l with
  | nil => rfl
  | cons a t => simp [List.dropWhile_cons, h a (by simp)]

theorem head?_dropWhile_false {p : Char → Bool} :
    ∀ (l : List Char) (x : Char), (l.dropWhile p).head? = some x → p x = false := by
  intro l
  induction l with
  | nil => intro x hx; simp at hx
  | cons a t ih =>
    intro x hx
    by_cases hp : p a = true
    · rw [List.dropWhile_cons, if_pos hp] at hx
      exact ih x hx
    · rw [List.dropWhile_cons, if_neg hp] at hx
      simp at hx
      subst hx
      simpa using hp

theorem subBad_mem_out :
    ∀ (l : List Char) (flag : Bool), (∀ x ∈ l, x.toNat ≠ 0x212A) →
      ∀ x ∈ subBad flag l, isOutChar x = true := by
  intro l
  induction l with
  | nil => intro flag _ x hx; simp [subBad] at hx
  | cons c cs ih =>
    intro flag hnk x hx
    by_cases hc : isKeptChar c = true
    · rw [subBad, if_pos hc] at hx
      rw [List.mem_cons] at hx
      rcases hx with hx | hx
      · subst hx
        exact isOutChar_of_kept x hc (hnk x (by simp))
      · exact ih false (fun y hy => hnk y (by simp [hy])) x hx
    · rw [subBad, if_neg hc] at hx
      cases flag with
      | true =>
        exact ih true (fun y hy => hnk y (by simp [hy])) x (by simpa using hx)
      | false =>
        simp only [Bool.false_eq_true, if_false, List.mem_cons] at hx
        rcases hx with hx | hx
        · subst hx; decide
        · exact ih true (fun y hy => hnk y (by simp [hy])) x hx

theorem subBad_fix {l : List Char}
    (h : ∀ x ∈ l, isOutChar x = true) :
    ∀ flag, subBad flag l = l := by
  induction l with
  | nil => intro flag; rfl
  | cons c cs ih =>
    intro flag
    rw [subBad, if_pos (isOutChar_kept c (h c (by simp)))]
    rw [ih (fun x hx => h x (by simp [hx])) false]

theorem collapseAux_mem :
    ∀ (l : List Char) (flag : Bool), (∀ x ∈ l, isOutChar x = true) →
      ∀ x ∈ collapseAux flag l, isOutChar x = true := by
  intro l
  induction l with
  | nil => intro flag _ x hx; simp [collapseAux] at hx
  | cons c cs ih =>
    intro flag h x hx
    by_cases hc : c = '-'
    · subst hc
      rw [collapseAux, if_pos rfl] at hx
      cases flag with
      | true => exact ih true (fun y hy => h y (by simp [hy])) x (by simpa using hx)
      | false =>
        simp only [Bool.false_eq_true, if_false, List.mem_cons] at hx
        rcases hx with hx | hx
        · subst hx; decide
        · exact ih true (fun y hy => h y (by simp [hy])) x hx
    · rw [collapseAux, if_neg hc] at hx
      rw [List.mem_cons] at hx
      rcases hx with hx | hx
      · subst hx; exact h x (by simp)
      · exact ih false (fun y hy => h y (by simp [hy])) x hx

theorem collapseAux_true_head :
    ∀ l : List Char, (collapseAux true l).head? ≠ some '-' := by
  intro l
  induction l with
  | nil => simp [collapseAux]
  | cons c cs ih =>
    by_cases hc : c = '-'
    · subst hc
      rw [collapseAux, if_pos rfl]
      simpa using ih
    · rw [collapseAux, if_neg hc]
      simpa using hc

theorem collapseAux_noTwo :
    ∀ (l : List Char) (flag : Bool), NoTwoHyphens (collapseAux flag l) := by
  intro l
  induction l with
  | nil => intro flag h; simp [collapseAux] at h
  | cons c cs ih =>
    intro flag
    by_cases hc : c = '-'
    · subst hc
      rw [collapseAux, if_pos rfl]
      cases flag with
      | true => exact ih true
      | false =>
        simp only [Bool.false_eq_true, if_false]
        unfold NoTwoHyphens
        rw [List.infix_cons_iff]
        rintro (hpre | hinf)
        · rw [List.cons_prefix_cons] at hpre
          obtain ⟨_, hpre2⟩ := hpre
          apply collapseAux_true_head cs
          cases hcs : collapseAux true cs with
          | nil => rw [hcs] at hpre2; simp at hpre2
          | cons b t =>
            rw [hcs] at hpre2
            rw [List.cons_prefix_cons] at hpre2
            simp [hpre2.1.symm]
        · exact ih true hinf
    · rw [collapseAux, if_neg hc]
      unfold NoTwoHyphens
      rw [List.infix_cons_iff]
      rintro (hpre | hinf)
      · rw [List.cons_prefix_cons] at hpre
        exact hc hpre.1.symm
      · exact ih false hinf

theorem collapseAux_fix :
    ∀ l : List Char, NoTwoHyphens l →
      ∀ flag, (flag = true → l.head? ≠ some '-') → collapseAux flag l = l := by
  intro l
  induction l with
  | nil => intro _ flag _; rfl
  | cons c cs ih =>
    intro h flag hflag
    by_cases hc : c = '-'
    · subst hc
      cases flag with
      | true => exact (hflag rfl rfl).elim
      | false =>
        rw [collapseAux, if_pos rfl]
        simp only [Bool.false_eq_true, if_false]
        have hcs : NoTwoHyphens cs := fun hinf => h (List.infix_cons hinf)
        have hhd : cs.head? ≠ some '-' := by
          intro hh
          apply h
          cases cs with
          | nil => simp at hh
          | cons b t =>
            simp at hh
            subst hh
            exact ⟨[], t, rfl⟩
        rw [ih hcs true (fun _ => hhd)]
    · rw [collapseAux, if_neg hc]
      rw [ih (fun hinf => h (List.infix_cons hinf)) false (by simp)]

theorem noTwo_of_suffix {l t : List Char} (hs : t <:+ l)
    (h : NoTwoHyphens l) : NoTwoHyphens t :=
  fun hinf => h (hinf.trans hs.isInfix)

theorem noTwo_reverse {l : List Char} (h : NoTwoHyphens l) :
    NoTwoHyphens l.reverse := by
  intro hinf
  apply h
  have : (['-', '-'] : List Char).reverse <:+: l.reverse := by
    simpa using hinf
  exact List.reverse_infix.mp this

theorem stripChar_subset {c : Char} {l : List Char} :
    ∀ x ∈ stripChar c l, x ∈ l := by
  intro x hx
  unfold stripChar at hx
  rw [List.mem_reverse] at hx
  have h1 := (@List.dropWhile_sublist Char
    (l.dropWhile (fun x => decide (x = c))).reverse
    (fun x => decide (x = c))).subset hx
  rw [List.mem_reverse] at h1
  exact (@List.dropWhile_sublist Char l (fun x => decide (x = c))).subset h1

theorem stripChar_noTwo {l : List Char} (h : NoTwoHyphens l) :
    NoTwoHyphens (stripChar '-' l) := by
  unfold stripChar
  apply noTwo_reverse
  apply noTwo_of_suffix (List.dropWhile_suffix _)
  apply noTwo_reverse
  exact noTwo_of_suffix (List.dropWhile_suffix _) h

theorem stripChar_head {c : Char} {l : List Char} :
    (stripChar c l).head? ≠ some c := by
  intro hh
  unfold stripChar at hh
  set m := l.dropWhile (fun x => decide (x = c)) with hm
  have hmh : m.head? ≠ some c := by
    intro h2
    have := head?_dropWhile_false _ _ h2
    simp at this
  have hpre : (m.reverse.dropWhile (fun x => decide (x = c))).reverse <+: m := by
    have hs : m.reverse.dropWhile (fun x => decide (x = c)) <:+ m.reverse :=
      List.dropWhile_suffix _
    have := List.reverse_prefix.mpr hs
    simpa using this
  obtain ⟨k, hk⟩ := hpre
  cases hr : (m.reverse.dropWhile (fun x => decide (x = c))).reverse with
  | nil => rw [hr] at hh; simp at hh
  | cons a t =>
    rw [hr] at hh hk
    simp at hh
    subst hh
    apply hmh
    rw [← hk]
    rfl

theorem stripChar_last {c : Char} {l : List Char} :
    (stripChar c l).getLast? ≠ some c := by
  intro hh
  unfold stripChar at hh
  rw [List.getLast?_reverse] at hh
  have := head?_dropWhile_false _ _ hh
  simp at this

theorem stripChar_fix {c : Char} {l : List Char}
    (h1 : l.head? ≠ some c) (h2 : l.getLast? ≠ some c) :
    stripChar c l = l := by
  unfold stripChar
  have hd1 : l.dropWhile (fun x => decide (x = c)) = l := by
    cases l with
    | nil => rfl
    | cons a t =>
      rw [List.dropWhile_cons, if_neg]
      simp
      intro ha
      exact h1 (by simp [ha])
  rw [hd1]
  have hd2 : l.reverse.dropWhile (fun x => decide (x = c)) = l.reverse := by
    cases hr : l.reverse with
    | nil => rfl
    | cons a t =>
      rw [List.dropWhile_cons, if_neg]
      simp
      intro ha
      subst ha
      apply h2
      rw [← List.head?_reverse, hr]
      rfl
  rw [hd2, List.reverse_reverse]

theorem map_pyLower_fix {l : List Char}
    (h : ∀ x ∈ l, isOutChar x = true) : l.map pyLower = l := by
  induction l with
  | nil => rfl
  | cons a t ih =>
    simp only [List.map_cons]
    rw [isOutChar_pyLower a (h a (by simp)),
      ih (fun x hx => h x (by simp [hx]))]

theorem pyStrip_fix {l : List Char}
    (h : ∀ x ∈ l, isOutChar x = true) : pyStrip l = l := by
  unfold pyStrip
  rw [dropWhile_eq_self_of_all
    (fun x hx => isOutChar_not_whitespace x (h x hx))]
  rw [dropWhile_eq_self_of_all
    (fun x hx => isOutChar_not_whitespace x (h x (List.mem_reverse.mp hx)))]
  exact List.reverse_reverse l

/-- The five structural slug properties. -/
def GoodSlug (l : List Char) : Prop :=
  l ≠ [] ∧ (∀ x ∈ l, isOutChar x = true) ∧ NoTwoHyphens l ∧
    l.head? ≠ some '-' ∧ l.getLast? ≠ some '-'

theorem goodSlug_modelo : GoodSlug ("modelo".toList) := by
  refine ⟨by decide, by decide, ?_, by decide, by decide⟩
  unfold NoTwoHyphens
  decide

theorem slugCore_goodParts (s : List Char) :
    (∀ x ∈ slugCore s, isOutChar x = true) ∧ NoTwoHyphens (slugCore s) ∧
      (slugCore s).head? ≠ some '-' ∧ (slugCore s).getLast? ≠ some '-' := by
  refine ⟨?_, ?_, stripChar_head, stripChar_last⟩
  · intro x hx
    have hx2 := stripChar_subset x hx
    refine collapseAux_mem _ false (subBad_mem_out _ false ?_) x hx2
    intro y hy
    rw [List.mem_map] at hy
    obtain ⟨z, _, rfl⟩ := hy
    exact pyLower_ne_kelvin z
  · exact stripChar_noTwo (collapseAux_noTwo _ false)

theorem slugifyChars_goodSlug (s : List Char) : GoodSlug (slugifyChars s) := by
  unfold slugifyChars
  obtain ⟨hmem, htwo, hhd, hlast⟩ := slugCore_goodParts s
  by_cases hE : (slugCore s).isEmpty
  · rw [if_pos hE]
    exact goodSlug_modelo
  · rw [if_neg hE]
    exact ⟨by simpa [List.isEmpty_iff] using hE, hmem, htwo, hhd, hlast⟩

theorem slugifyChars_fix {l : List Char} (h : GoodSlug l) :
    slugifyChars l = l := by
  obtain ⟨hne, hmem, htwo, hhd, hlast⟩ := h
  have hcore : slugCore l = l := by
    unfold slugCore subBadRuns collapseHyphens
    rw [pyStrip_fix hmem, map_pyLower_fix hmem, subBad_fix hmem false,
      collapseAux_fix l htwo false (by simp), stripChar_fix hhd hlast]
  unfold slugifyChars
  rw [hcore, if_neg (by simpa [List.isEmpty_iff] using hne)]

/-- C4, counterexample to the claim as stated.  Long s (U+017F) is a
`str.lower` fixed point and, through the IGNORECASE case-equivalence with
s, is not matched by the negated class, so the source returns it
verbatim: the slug of "\u017F" contains a character outside
`[a-z0-9-_]`.  (Dotless i, U+0131, behaves the same way.) -/
theorem C4_slugify_class_counterexample :
    slugify "\u017F" = "\u017F" ∧ isSlugChar '\u017F' = false ∧
      slugify "\u0131" = "\u0131" ∧ isSlugChar '\u0131' = false :=
  ⟨rfl, rfl, rfl, rfl⟩

/-- C4 (amended).  `slugify` is total (a Lean function) and idempotent,
and for every input string its result is non-empty, has no two adjacent
hyphens and no leading or trailing hyphen, and each of its characters is
in `[a-z0-9-_]` or is one of the two `re.IGNORECASE` case-equivalence
survivors that `str.lower` fixes — dotless i (U+0131) and long s
(U+017F) — which the substitution preserves although they fall outside
`[a-z0-9-_]`. -/
theorem C4_slugify_valid_and_idempotent (s : String) :
    slugify s ≠ "" ∧
    (∀ c ∈ (slugify s).data, isOutChar c = true) ∧
    NoTwoHyphens (slugify s).data ∧
    (slugify s).data.head? ≠ some '-' ∧
    (slugify s).data.getLast? ≠ some '-' ∧
    slugify (slugify s) = slugify s := by
  have hg := slugifyChars_goodSlug s.data
  obtain ⟨hne, hmem, htwo, hhd, hlast⟩ := hg
  refine ⟨?_, ?_, ?_, ?_, ?_, ?_⟩
  · intro h
    apply hne
    have : (slugify s).data = slugifyChars s.data := rfl
    rw [h] at this
    exact this.symm
  · exact hmem
  · exact htwo
  · exact hhd
  · exact hlast
  · show String.mk (slugifyChars (slugifyChars s.data)) = _
    rw [slugifyChars_fix ⟨hne, hmem, htwo, hhd, hlast⟩]
    rfl

/-! ## Element metadata extraction (source lines 95-152) -/

/-- A relating spatial structure: whether it has an `is_a` method, whether
`is_a("IfcBuildingStorey")` holds, and its `Name`/`LongName` attributes
(an attribute may be absent, `Option.none`, or present but empty). -/
structure PStruct where
  hasIsA : Bool
  isStorey : Bool
  name : Option String
  longName : Option String

/-- One `IfcRelContainedInSpatialStructure` relationship. -/
structure PRel where
  relatingStructure : Option PStruct

/-- One element as `extract_metadata` observes it.  Calls that can raise
are `Except`; `getattr` reads with a `None` default are `Option`. -/
structure PElement where
  isOpening : Except Unit Bool
  etype : Except Unit String
  guid : Option String
  name : Option String
  tag : Option String
  containedIn : Except Unit (Option (List PRel))
  psets : Except Unit Value

/-- The opened model: `model.by_type("IfcProduct")` in document order. -/
structure PModel where
  elements : List PElement

/-- Python `a or b` on two optional strings: the empty string is falsy,
and the second operand is returned as-is when the first is falsy. -/
def pyOrStr : Option String → Option String → Option String
  | some a, b => if a = "" then b else some a
  | Option.none, b => b

/-- The `for rel in rels` loop of `get_storey_name` (source lines
101-104): the first relationship whose relating structure is truthy, has
`is_a`, and is a building storey makes the function return that
structure's `Name or LongName`; otherwise scanning continues. -/
def storeyLoop : List PRel → Option String
  | [] => Option.none
  | r :: rs =>
    match r.relatingStructure with
    | some s =>
      if s.hasIsA && s.isStorey then pyOrStr s.name s.longName
      else storeyLoop rs
    | Option.none => storeyLoop rs

/-- `get_storey_name(elem)` from the source (lines 95-107): `None` when
the relationship list cannot be read (the `try` swallows the exception),
when it is `None` or empty (both falsy), or when no relationship matches. -/
def get_storey_name (e : PElement) : Option String :=
  match e.containedIn with
  | .error _ => Option.none
  | .ok Option.none => Option.none
  | .ok (some rels) => if rels.isEmpty then Option.none else storeyLoop rels

/-- Modelled from the spec (§4.2 ContainmentResolver), for comparison with
`get_storey_name`: scan the element's contained-in relationships and
return the display name — name, falling back to the secondary long-name
attribute — of the first relating structure whose semantic kind matches
the storey kind; absent when no relationship exists, none matches, or the
relationship list cannot be read. -/
def findContainerName (e : PElement) : Option String :=
  match e.containedIn with
  | .error _ => Option.none
  | .ok Option.none => Option.none
  | .ok (some rels) =>
    match rels.find? (fun r =>
      match r.relatingStructure with
      | some s => s.hasIsA && s.isStorey
      | Option.none => false) with
    | some r =>
      match r.relatingStructure with
      | some s => pyOrStr s.name s.longName
      | Option.none => Option.none
    | Option.none => Option.none

/-- The per-element metadata record (source lines 135-146).  `psets =
Option.none` models the `"psets"` key being absent from the dict (the
source only assigns it when `get_psets` was imported). -/
structure Item where
  type : String
  name : Option String
  tag : Option String
  storey : Option String
  psets : Option Value

/-- The `"psets"` entry of the record: assigned only when `get_psets` was
importable (`psAvail`); the inner `try` turns a raise from
`get_psets` or from `to_jsonable` into an empty dict (source lines
142-146). -/
def psetsField (psAvail : Bool) (e : PElement) : Option Value :=
  if psAvail then
    some (match e.psets.bind (to_jsonable true) with
      | .ok v => v
      | .error _ => Value.dict [])
  else Option.none

/-- The body of the per-element `try` (source lines 128-147): skip
openings and GUID-less elements (`if not guid` also skips the empty
string), build the record, and report the GUID/record pair; a raise from
`is_a` propagates to the per-element handler. -/
def build_record (psAvail : Bool) (e : PElement) :
    Except Unit (Option (String × Item)) :=
  match e.isOpening with
  | .error u => .error u
  | .ok true => .ok Option.none
  | .ok false =>
    match e.guid with
    | Option.none => .ok Option.none
    | some g =>
      if g = "" then .ok Option.none
      else
        match e.etype with
        | .error u => .error u
        | .ok ty =>
          .ok (some (g, ⟨ty, e.name, e.tag, get_storey_name e,
            psetsField psAvail e⟩))

/-- `out[str(guid)] = item`: Python dict assignment keeps the original
position of an existing key and appends a new key at the end. -/
def dictInsert (k : String) (v : Item) (d : List (String × Item)) :
    List (String × Item) :=
  if d.any (fun p => p.1 = k) then
    d.map (fun p => if p.1 = k then (k, v) else p)
  else d ++ [(k, v)]

/-- One iteration of the element loop: a raised exception or a skip
leaves the accumulated manifest unchanged (source lines 127-150). -/
def extractStep (psAvail : Bool) (out : List (String × Item))
    (e : PElement) : List (String × Item) :=
  match build_record psAvail e with
  | .ok (some (g, it)) => dictInsert g it out
  | _ => out

/-- `extract_metadata(ifc_path)` (source lines 110-152) together with the
lines it prints.  `avail` is `ifcopenshell is not None`, `psAvail` is
whether `from ifcopenshell.util.element import get_psets` succeeded.
When `ifcopenshell` is missing the function prints a warning and returns
the empty manifest; the per-element loop prints nothing. -/
def extract_metadata (avail psAvail : Bool) (m : PModel) :
    List (String × Item) × List String :=
  if avail then
    (m.elements.foldl (extractStep psAvail) [], [])
  else
    ([], ["[WARN] ifcopenshell nao esta instalado. metadata.json sera vazio."])

/-- A well-formed element that builds successfully was not an opening, and
its record's type tag, psets field and key come from the element. -/
theorem build_record_shape (ps : Bool) (e : PElement) (g : String) (it : Item)
    (h : build_record ps e = .ok (some (g, it))) :
    e.isOpening = .ok false ∧ e.etype = .ok it.type ∧
      it.psets = psetsField ps e ∧ e.guid = some g := by
  unfold build_record at h
  cases hio : e.isOpening with
  | error u => simp [hio] at h
  | ok b =>
    cases b with
    | true => simp [hio] at h
    | false =>
      simp only [hio] at h
      cases hg : e.guid with
      | none => simp [hg] at h
      | some gg =>
        simp only [hg] at h
        by_cases hgg : gg = ""
        · simp [hgg] at h
        · simp only [if_neg hgg] at h
          cases hty : e.etype with
          | error u => simp [hty] at h
          | ok ty =>
            simp only [hty] at h
            rw [Except.ok.injEq, Option.some.injEq, Prod.mk.injEq] at h
            obtain ⟨h1, h2⟩ := h
            subst h1
            subst h2
            exact ⟨rfl, rfl, rfl, rfl⟩

theorem mem_dictInsert {p : String × Item} {g : String} {it : Item}
    {d : List (String × Item)} (h : p ∈ dictInsert g it d) :
    p = (g, it) ∨ p ∈ d := by
  unfold dictInsert at h
  by_cases hany : d.any (fun q => q.1 = g) = true
  · rw [if_pos hany] at h
    rw [List.mem_map] at h
    obtain ⟨q, hq, hfq⟩ := h
    by_cases hqg : q.1 = g
    · rw [if_pos hqg] at hfq; exact Or.inl hfq.symm
    · rw [if_neg hqg] at hfq; exact Or.inr (hfq ▸ hq)
  · rw [if_neg hany] at h
    rw [List.mem_append] at h
    rcases h with h | h
    · exact Or.inr h
    · simp at h; exact Or.inl (by simp [h])

theorem mem_fst_dictInsert_self (g : String) (it : Item)
    (d : List (String × Item)) : g ∈ (dictInsert g it d).map Prod.fst := by
  unfold dictInsert
  by_cases hany : d.any (fun q => q.1 = g) = true
  · rw [if_pos hany]
    rw [List.any_eq_true] at hany
    obtain ⟨q, hq, hqg⟩ := hany
    rw [List.mem_map]
    refine ⟨(g, it), ?_, rfl⟩
    rw [List.mem_map]
    exact ⟨q, hq, by simp at hqg; simp [hqg]⟩
  · rw [if_neg hany]
    simp

theorem mem_fst_dictInsert_mono {k : String} (g : String) (it : Item)
    {d : List (String × Item)} (h : k ∈ d.map Prod.fst) :
    k ∈ (dictInsert g it d).map Prod.fst := by
  unfold dictInsert
  by_cases hany : d.any (fun q => q.1 = g) = true
  · rw [if_pos hany]
    rw [List.mem_map] at h
    obtain ⟨q, hq, hqk⟩ := h
    rw [List.mem_map]
    refine ⟨(fun p => if p.1 = g then (g, it) else p) q, List.mem_map_of_mem _ hq, ?_⟩
    by_cases hqg : q.1 = g
    · simp [hqg, ← hqk, hqg]
    · have hkg : ¬ (k = g) := fun hk => hqg (by rw [hqk, hk])
      simp [hqg, hqk, hkg]
  · rw [if_neg hany]
    rw [List.map_append]
    exact List.mem_append_left _ h

theorem mem_fst_foldl (ps : Bool) (l : List PElement) {k : String} :
    ∀ acc : List (String × Item), k ∈ acc.map Prod.fst →
      k ∈ (l.foldl (extractStep ps) acc).map Prod.fst := by
  induction l with
  | nil => intro acc h; simpa using h
  | cons e t ih =>
    intro acc h
    rw [List.foldl_cons]
    apply ih
    unfold extractStep
    cases hbr : build_record ps e with
    | error u => exact h
    | ok o =>
      cases o with
      | none => exact h
      | some p => exact mem_fst_dictInsert_mono p.1 p.2 h

/-- C9.  `get_storey_name` implements the spec's containment resolver:
it returns the `Name`-or-`LongName` display name of the first relating
structure in the element's contained-in relationship list whose kind is
the building storey, and absent when no relationship exists, none
matches, or the relationship list cannot be read.  It is a total Lean
function, so it never raises. -/
theorem C9_storey_resolver_matches_spec (e : PElement) :
    get_storey_name e = findContainerName e := by
  unfold get_storey_name findContainerName
  cases e.containedIn with
  | error u => rfl
  | ok o =>
    cases o with
    | none => rfl
    | some rels =>
      simp only []
      induction rels with
      | nil => rfl
      | cons r rs ih =>
        simp only [List.isEmpty_cons, if_false]
        cases hrs : r.relatingStructure with
        | none =>
          rw [List.find?_cons_of_neg _ (by simp [hrs])]
          have hloop : storeyLoop (r :: rs) = storeyLoop rs := by
            simp [storeyLoop, hrs]
          rw [hloop]
          cases hre : rs.isEmpty
          · simpa [hre] using ih
          · rw [List.isEmpty_iff] at hre
            subst hre
            rfl
        | some s =>
          by_cases hcond : (s.hasIsA && s.isStorey) = true
          · rw [List.find?_cons_of_pos _ (by simp [hrs, hcond])]
            simp [storeyLoop, hrs, hcond]
          · rw [List.find?_cons_of_neg _ (by simp [hrs, hcond])]
            have hloop : storeyLoop (r :: rs) = storeyLoop rs := by
              simp [storeyLoop, hrs, hcond]
            rw [hloop]
            cases hre : rs.isEmpty
            · simpa [hre] using ih
            · rw [List.isEmpty_iff] at hre
              subst hre
              rfl

/-- C2 (amended).  Any exception raised while building a single element's
record is caught at the per-element boundary: the element is dropped and
extraction of all other elements continues unchanged — but the drop is
silent; the per-element handler logs nothing (the source's `except` block
is a bare `continue`). -/
theorem C2_element_failure_isolated (avail psAvail : Bool)
    (pre post : List PElement) (e : PElement)
    (h : build_record psAvail e = .error ()) :
    extract_metadata avail psAvail ⟨pre ++ e :: post⟩ =
      extract_metadata avail psAvail ⟨pre ++ post⟩ := by
  cases avail with
  | false => rfl
  | true =>
    unfold extract_metadata
    simp only [if_true]
    rw [List.foldl_append, List.foldl_append, List.foldl_cons]
    have hstep : ∀ acc, extractStep psAvail acc e = acc := by
      intro acc
      unfold extractStep
      rw [h]
    rw [hstep]

/-- Sample elements used by concrete witnesses: a well-formed wall, an
element whose `is_a` calls raise, and an opening. -/
def okElem : PElement :=
  ⟨.ok false, .ok "IfcWall", some "G1", some "Wall-1", Option.none,
    .ok Option.none, .ok (.dict [])⟩

def badElem : PElement :=
  ⟨.error (), .error (), some "G2", Option.none, Option.none,
    .ok Option.none, .ok (.dict [])⟩

def openElem : PElement :=
  ⟨.ok true, .ok "IfcOpeningElement", some "G3", Option.none, Option.none,
    .ok Option.none, .ok (.dict [])⟩

theorem C2_element_failure_isolated_witness :
    build_record true badElem = .error () ∧
    extract_metadata true true ⟨[okElem, badElem]⟩ =
      extract_metadata true true ⟨[okElem]⟩ :=
  ⟨rfl, C2_element_failure_isolated true true [okElem] [] badElem rfl⟩

/-- C2, counterexample to the logging part of the claim.  A model whose
only element raises while its record is being built: the element is
dropped (empty manifest, first component) but nothing is logged (empty
print log, second component) — the source's per-element `except` block is
a bare comment plus `continue`, so the drop is not logged. -/
theorem C2_drop_not_logged_counterexample :
    extract_metadata true true ⟨[badElem]⟩ = ([], []) := rfl

theorem foldl_filter_opening (ps : Bool) (l : List PElement) :
    ∀ acc, l.foldl (extractStep ps) acc =
      (l.filter (fun e =>
        match e.isOpening with
        | .ok true => false
        | _ => true)).foldl (extractStep ps) acc := by
  induction l with
  | nil => intro acc; rfl
  | cons e t ih =>
    intro acc
    by_cases hk : (match e.isOpening with
      | .ok true => false
      | _ => true) = true
    · rw [List.filter_cons, if_pos hk, List.foldl_cons, List.foldl_cons]
      exact ih _
    · have hio : e.isOpening = .ok true := by
        cases hio : e.isOpening with
        | error u => rw [hio] at hk; simp at hk
        | ok b =>
          cases b with
          | true => rfl
          | false => rw [hio] at hk; simp at hk
      rw [List.filter_cons, if_neg hk, List.foldl_cons]
      have hstep : extractStep ps acc e = acc := by
        unfold extractStep
        have hbr : build_record ps e = .ok Option.none := by
          unfold build_record
          simp [hio]
        rw [hbr]
      rw [hstep]
      exact ih acc

theorem extract_fold_no_opening (ps : Bool) (l : List PElement) :
    ∀ acc : List (String × Item),
      (∀ g it, (g, it) ∈ acc → it.type ≠ "IfcOpeningElement") →
      (∀ e ∈ l, e.etype = .ok "IfcOpeningElement" → e.isOpening = .ok true) →
      ∀ g it, (g, it) ∈ l.foldl (extractStep ps) acc →
        it.type ≠ "IfcOpeningElement" := by
  induction l with
  | nil => intro acc hacc _ g it hmem; exact hacc g it hmem
  | cons e t ih =>
    intro acc hacc hl g it hmem
    rw [List.foldl_cons] at hmem
    refine ih _ ?_ (fun e2 he2 => hl e2 (by simp [he2])) g it hmem
    intro g2 it2 hmem2
    unfold extractStep at hmem2
    cases hbr : build_record ps e with
    | error u => rw [hbr] at hmem2; exact hacc g2 it2 hmem2
    | ok o =>
      cases o with
      | none => rw [hbr] at hmem2; exact hacc g2 it2 hmem2
      | some p =>
        rw [hbr] at hmem2
        rcases mem_dictInsert hmem2 with hp | hp
        · have hit2 : it2 = p.2 := congrArg Prod.snd hp
          obtain ⟨hop, hty, _, _⟩ :=
            build_record_shape ps e p.1 p.2 (by rw [hbr])
          intro hcontra
          have hety : e.etype = .ok "IfcOpeningElement" := by
            rw [hty, ← hit2, hcontra]
          have hcontra2 := hl e (by simp) hety
          rw [hop] at hcontra2
          exact absurd hcontra2 (by simp)
        · exact hacc g2 it2 hp

/-- C7.  For a model whose elements have consistent kind information (an
element whose type tag is the opening placeholder satisfies
`is_a("IfcOpeningElement")`), no opening element ever reaches the
manifest: every manifest record has a non-opening type tag, and filtering
the openings out of the element list leaves the extraction result
unchanged — openings are skipped by design before any record is built. -/
theorem C7_no_opening_in_manifest (avail psAvail : Bool) (m : PModel)
    (h : ∀ e ∈ m.elements,
      e.etype = .ok "IfcOpeningElement" → e.isOpening = .ok true) :
    (∀ g it, (g, it) ∈ (extract_metadata avail psAvail m).1 →
      it.type ≠ "IfcOpeningElement") ∧
    extract_metadata avail psAvail m =
      extract_metadata avail psAvail ⟨m.elements.filter (fun e =>
        match e.isOpening with
        | .ok true => false
        | _ => true)⟩ := by
  constructor
  · cases avail with
    | false => intro g it hmem; simp [extract_metadata] at hmem
    | true =>
      intro g it hmem
      simp only [extract_metadata, if_true] at hmem
      exact extract_fold_no_opening psAvail m.elements []
        (by intro g2 it2 hmem2; simp at hmem2) h g it hmem
  · cases avail with
    | false => rfl
    | true =>
      simp only [extract_metadata, if_true]
      rw [foldl_filter_opening psAvail m.elements []]

theorem C7_no_opening_in_manifest_witness :
    extract_metadata true true ⟨[openElem, okElem]⟩ =
      extract_metadata true true ⟨[openElem, okElem].filter (fun e =>
        match e.isOpening with
        | .ok true => false
        | _ => true)⟩ :=
  (C7_no_opening_in_manifest true true ⟨[openElem, okElem]⟩ (by
    intro e he hty
    rw [List.mem_cons, List.mem_cons] at he
    rcases he with rfl | rfl | he
    · rfl
    · simp [okElem] at hty
    · simp at he)).2

/-- Drop the `"psets"` key from a record, for comparing records built
from elements that differ only in their property-set outcome. -/
def erasePsets (it : Item) : Item :=
  ⟨it.type, it.name, it.tag, it.storey, Option.none⟩

/-- C1 (amended).  A property-set failure alone never drops an element:
whether the element is skipped, raises, or yields a record — and which
GUID and core fields the record carries — is independent of the
property-set outcome, and an element whose record is built still lands in
the manifest.  When the `get_psets` capability is present and the query
(or the normalization of its result) raises, the record's `psets` field
is present and equal to the empty mapping; but when the capability is
unavailable the `"psets"` key is absent from the record, not an empty
mapping. -/
theorem C1_psets_failure_never_drops (e : PElement) :
    (∀ ps : Bool, ∀ q1 q2 : Except Unit Value,
      (build_record ps { e with psets := q1 }).map
          (Option.map (fun p => (p.1, erasePsets p.2))) =
        (build_record ps { e with psets := q2 }).map
          (Option.map (fun p => (p.1, erasePsets p.2)))) ∧
    (∀ g it, build_record true e = .ok (some (g, it)) →
        e.psets.bind (to_jsonable true) = .error () →
        it.psets = some (.dict [])) ∧
    (∀ g it, build_record false e = .ok (some (g, it)) →
        it.psets = Option.none) ∧
    (∀ ps : Bool, ∀ g it, ∀ pre post : List PElement,
      build_record ps e = .ok (some (g, it)) →
      g ∈ ((extract_metadata true ps ⟨pre ++ e :: post⟩).1.map Prod.fst)) := by
  refine ⟨?_, ?_, ?_, ?_⟩
  · obtain ⟨io, ty, gd, nm, tg, ci, psv⟩ := e
    intro ps q1 q2
    cases io with
    | error u => rfl
    | ok b =>
      cases b with
      | true => rfl
      | false =>
        cases gd with
        | none => rfl
        | some gg =>
          by_cases hgg : gg = ""
          · simp [build_record, hgg]
          · cases ty with
            | error u => simp [build_record, hgg]
            | ok t =>
              simp [build_record, hgg, erasePsets, Except.map, Option.map]
              rfl
  · intro g it hbr hq
    obtain ⟨_, _, hps, _⟩ := build_record_shape true e g it hbr
    rw [hps]
    simp [psetsField, hq]
  · intro g it hbr
    obtain ⟨_, _, hps, _⟩ := build_record_shape false e g it hbr
    rw [hps]
    simp [psetsField]
  · intro ps g it pre post hbr
    simp only [extract_metadata, if_true]
    rw [List.foldl_append, List.foldl_cons]
    have hstep : extractStep ps (pre.foldl (extractStep ps) []) e =
        dictInsert g it (pre.foldl (extractStep ps) []) := by
      unfold extractStep
      rw [hbr]
    rw [hstep]
    exact mem_fst_foldl ps post _ (mem_fst_dictInsert_self g it _)

/-- The record the source builds for `okElem` when `get_psets` is
unavailable: note the absent `psets` key. -/
def okElemRecord : Item :=
  ⟨"IfcWall", some "Wall-1", Option.none, Option.none, Option.none⟩

theorem C1_psets_failure_never_drops_witness :
    okElemRecord.psets = Option.none ∧
    "G1" ∈ ((extract_metadata true false ⟨[okElem]⟩).1.map Prod.fst) :=
  ⟨(C1_psets_failure_never_drops okElem).2.2.1 "G1" okElemRecord rfl,
   (C1_psets_failure_never_drops okElem).2.2.2 false "G1" okElemRecord [] [] rfl⟩

/-- C1, counterexample to the claim as stated.  `okElem` has a GUID and
the property-set capability is unavailable (`psAvail = false`): the
element still appears in the manifest, but its record carries no
`"psets"` key at all (`psets = Option.none` in the model) — the source
only assigns `item["psets"]` under `if get_psets:` — rather than a
present-and-empty mapping as the claim requires. -/
theorem C1_psets_key_absent_counterexample :
    extract_metadata true false ⟨[okElem]⟩ =
      ([("G1", ⟨"IfcWall", some "Wall-1", Option.none, Option.none,
        Option.none⟩)], []) := rfl


/-! ## The orchestrating main loop (source lines 177-242) -/

/-- One row of `models.json` (the `ModelEntry` dataclass, lines 170-174). -/
structure ModelEntry where
  name : String
  slug : String
  updated : String

/-- One file written under the fresh output root, as path segments below
`site_dir` plus its content.  The root is destructively cleared before the
loop (lines 205-207), so the writes fully determine the final tree and a
path's final content is its last write. -/
structure WrittenFile where
  path : List String
  content : String

/-- The build's collaborators and ambient state: whether `ifcopenshell`
and `get_psets` imported, the model obtained by opening each input file,
the conversion collaborator's asset bytes for each input file, the two
template contents, and the formatted timestamp. -/
structure Env where
  avail : Bool
  psAvail : Bool
  modelOf : String → PModel
  assetOf : String → String
  viewerTemplate : String
  rootTemplate : String
  now : String

/-- `Path.stem` for the filenames matched by `glob("*.ifc")`: the name
without its final `.ifc` extension (a bare `.ifc` has no stem to strip). -/
def stem (f : String) : String :=
  if 4 < f.data.length && f.data.drop (f.data.length - 4) = ".ifc".data then
    String.mk (f.data.take (f.data.length - 4))
  else f

/-- Code-point lexicographic `≤` on character lists: how Python compares
strings, hence how `sorted(ifc_dir.glob("*.ifc"))` orders the input files
(all paths share the directory prefix, so path order is filename order). -/
def fileLe : List Char → List Char → Bool
  | [], _ => true
  | _ :: _, [] => false
  | a :: as, b :: bs =>
    if a.toNat < b.toNat then true
    else if b.toNat < a.toNat then false
    else fileLe as bs

/-- The file ordering as a decidable relation on strings. -/
def fileLeRel (a b : String) : Prop := fileLe a.data b.data = true

instance : DecidableRel fileLeRel :=
  fun a b => inferInstanceAs (Decidable (fileLe a.data b.data = true))

/-- `sorted(...)` of the input file names: any stable sort by `fileLeRel`;
the model uses insertion sort. -/
def sortFiles (files : List String) : List String :=
  files.insertionSort fileLeRel

/-- Minimal JSON string escaping (backslash and quote). -/
def jsonEscape (s : String) : String :=
  String.mk ((s.data.map (fun c =>
    if c = '"' || c = '\\' then ['\\', c] else [c])).flatten)

def jsonStr (s : String) : String := "\"" ++ jsonEscape s ++ "\""

mutual
/-- `json.dumps` on a normalized value.  In the pipeline only JSON-safe
values reach serialization, and no claim inspects the rendering of a
non-empty manifest, so this is a plausible total stand-in. -/
def serializeValue : Value → String
  | .str s => jsonStr s
  | .int n => toString n
  | .float b => "float#" ++ toString b
  | .bool b => if b then "true" else "false"
  | .null => "null"
  | .dict es => "\x7b" ++ serializeEntriesJ es ++ "\x7d"
  | .list xs => "[" ++ serializeListJ xs ++ "]"
  | .tup xs => "[" ++ serializeListJ xs ++ "]"
  | .setv xs => "[" ++ serializeListJ xs ++ "]"
  | .entity _ _ => "null"
  | .obj _ _ => "null"

def serializeListJ : List Value → String
  | [] => ""
  | [x] => serializeValue x
  | x :: xs => serializeValue x ++ ", " ++ serializeListJ xs

def serializeEntriesJ : List (Value × Value) → String
  | [] => ""
  | [(k, v)] => serializeValue k ++ ": " ++ serializeValue v
  | (k, v) :: es =>
    serializeValue k ++ ": " ++ serializeValue v ++ ", " ++ serializeEntriesJ es
end

def serializeOptStr : Option String → String
  | some s => jsonStr s
  | Option.none => "null"

/-- `json.dumps` of one element record; the `"psets"` entry appears only
when the record has one. -/
def serializeItem (it : Item) : String :=
  "\x7b\"type\": " ++ jsonStr it.type ++
    ", \"name\": " ++ serializeOptStr it.name ++
    ", \"tag\": " ++ serializeOptStr it.tag ++
    ", \"storey\": " ++ serializeOptStr it.storey ++
    (match it.psets with
     | some v => ", \"psets\": " ++ serializeValue v
     | Option.none => "") ++ "\x7d"

/-- `json.dumps(metadata, ensure_ascii=False)` (line 227): in particular
the empty manifest serializes to exactly `"{}"`. -/
def serializeManifest (m : List (String × Item)) : String :=
  "\x7b" ++ String.intercalate ", "
    (m.map (fun p => jsonStr p.1 ++ ": " ++ serializeItem p.2)) ++ "\x7d"

/-- `json.dumps(models_json, ...)` (lines 236-237); no claim inspects its
rendering. -/
def serializeEntries (ms : List ModelEntry) : String :=
  "[" ++ String.intercalate ", " (ms.map (fun m =>
    "\x7b\"name\": " ++ jsonStr m.name ++ ", \"path\": " ++ jsonStr m.slug ++
      ", \"updated\": " ++ jsonStr m.updated ++ "\x7d")) ++ "]"

/-- The per-model body of the loop (lines 211-233): derive name and slug,
convert the asset, extract and serialize the metadata, copy the viewer
template, and record the `ModelEntry`. -/
def processModel (env : Env) (f : String) : List WrittenFile × ModelEntry :=
  ([⟨[slugify (stem f), "model.glb"], env.assetOf f⟩,
    ⟨[slugify (stem f), "metadata.json"],
      serializeManifest (extract_metadata env.avail env.psAvail (env.modelOf f)).1⟩,
    ⟨[slugify (stem f), "index.html"], env.viewerTemplate⟩],
   ⟨stem f, slugify (stem f), env.now⟩)

/-- `main()`'s output behaviour (lines 200-240): process the input files
in sorted order, then write `models.json` from the accumulated entries
and copy the root template.  Returns the write sequence and the entries. -/
def mainBuild (env : Env) (files : List String) :
    List WrittenFile × List ModelEntry :=
  ((sortFiles files).flatMap (fun f => (processModel env f).1) ++
     [⟨["models.json"], serializeEntries ((sortFiles files).map
        (fun f => (processModel env f).2))⟩,
      ⟨["index.html"], env.rootTemplate⟩],
   (sortFiles files).map (fun f => (processModel env f).2))

/-- The final content of a path after all writes into the initially empty
output tree: the last write wins. -/
def lastContent (path : List String) (writes : List WrittenFile) :
    Option String :=
  ((writes.filter (fun w => w.path = path)).getLast?).map WrittenFile.content

theorem fileLe_total_aux : ∀ a b : List Char,
    fileLe a b = true ∨ fileLe b a = true := by
  intro a
  induction a with
  | nil => intro b; left; rfl
  | cons x xs ih =>
    intro b
    cases b with
    | nil => right; rfl
    | cons y ys =>
      by_cases h1 : x.toNat < y.toNat
      · left; simp [fileLe, h1]
      · by_cases h2 : y.toNat < x.toNat
        · right; simp [fileLe, h2]
        · rcases ih ys with h | h
          · left; simp [fileLe, h1, h2, h]
          · right; simp [fileLe, h1, h2, h]

theorem fileLe_trans_aux : ∀ a b c : List Char,
    fileLe a b = true → fileLe b c = true → fileLe a c = true := by
  intro a
  induction a with
  | nil => intro b c _ _; rfl
  | cons x xs ih =>
    intro b c hab hbc
    cases b with
    | nil => simp [fileLe] at hab
    | cons y ys =>
      cases c with
      | nil => simp [fileLe] at hbc
      | cons z zs =>
        simp only [fileLe] at hab hbc ⊢
        by_cases h1 : x.toNat < y.toNat
        · by_cases h2 : y.toNat < z.toNat
          · simp [(by omega : x.toNat < z.toNat)]
          · by_cases h4 : z.toNat < y.toNat
            · simp [h2, h4] at hbc
            · simp [(by omega : x.toNat < z.toNat)]
        · by_cases h2 : y.toNat < x.toNat
          · simp [h1, h2] at hab
          · by_cases h3 : y.toNat < z.toNat
            · simp [(by omega : x.toNat < z.toNat)]
            · by_cases h4 : z.toNat < y.toNat
              · simp [h3, h4] at hbc
              · have hrec := ih ys zs (by simpa [h1, h2] using hab)
                  (by simpa [h3, h4] using hbc)
                simp [(by omega : ¬ x.toNat < z.toNat),
                  (by omega : ¬ z.toNat < x.toNat), hrec]
                omega

theorem fileLe_antisymm_aux : ∀ a b : List Char,
    fileLe a b = true → fileLe b a = true → a = b := by
  intro a
  induction a with
  | nil =>
    intro b _ hba
    cases b with
    | nil => rfl
    | cons y ys => simp [fileLe] at hba
  | cons x xs ih =>
    intro b hab hba
    cases b with
    | nil => simp [fileLe] at hab
    | cons y ys =>
      simp only [fileLe] at hab hba
      by_cases h1 : x.toNat < y.toNat
      · simp [h1] at hba
        omega
      · by_cases h2 : y.toNat < x.toNat
        · simp [h1, h2] at hab
        · have hxy : x.toNat = y.toNat := by omega
          have hx : x = y := Char.ext (UInt32.toNat.inj hxy)
          subst hx
          rw [ih ys (by simpa [h1, h2] using hab) (by simpa [h1, h2] using hba)]

instance : IsTotal String fileLeRel :=
  ⟨fun a b => fileLe_total_aux a.data b.data⟩

instance : IsTrans String fileLeRel :=
  ⟨fun a b c => fileLe_trans_aux a.data b.data c.data⟩

instance : IsAntisymm String fileLeRel := by
  refine ⟨fun a b h1 h2 => ?_⟩
  cases a with
  | mk da =>
    cases b with
    | mk db => exact congrArg String.mk (fileLe_antisymm_aux da db h1 h2)

theorem sortFiles_sorted (files : List String) :
    List.Pairwise fileLeRel (sortFiles files) :=
  List.sorted_insertionSort fileLeRel files

theorem sortFiles_perm (files : List String) :
    (sortFiles files).Perm files :=
  List.perm_insertionSort fileLeRel files

theorem sortFiles_congr_perm {files1 files2 : List String}
    (h : files1.Perm files2) : sortFiles files1 = sortFiles files2 :=
  List.eq_of_perm_of_sorted
    ((sortFiles_perm files1).trans (h.trans (sortFiles_perm files2).symm))
    (sortFiles_sorted files1) (sortFiles_sorted files2)

/-- C6.  When `ifcopenshell` is unavailable, extraction short-circuits to
the empty manifest for every model (after printing a warning), and the
pipeline still writes a metadata file whose content is exactly the empty
JSON object for each input file, rather than omitting the file or
failing. -/
theorem C6_unavailable_support_empty_manifests (env : Env)
    (files : List String) (h : env.avail = false) :
    (∀ m : PModel, (extract_metadata env.avail env.psAvail m).1 = []) ∧
    (∀ f ∈ files,
      WrittenFile.mk [slugify (stem f), "metadata.json"] "\x7b\x7d" ∈
        (mainBuild env files).1) := by
  constructor
  · intro m
    rw [h]
    rfl
  · intro f hf
    unfold mainBuild
    apply List.mem_append_left
    rw [List.mem_flatMap]
    refine ⟨f, ((sortFiles_perm files).mem_iff).mpr hf, ?_⟩
    unfold processModel
    have hser : serializeManifest
        (extract_metadata env.avail env.psAvail (env.modelOf f)).1 =
        "\x7b\x7d" := by
      rw [h]
      rfl
    rw [hser]
    simp

/-- A degraded environment (no `ifcopenshell`, no `get_psets`) used by
concrete witnesses. -/
def envNoIfc : Env :=
  ⟨false, false, fun _ => ⟨[]⟩, fun f => "glb:" ++ f, "viewer-template",
    "root-template", "2026-10-12 00:00 UTC"⟩

theorem C6_unavailable_support_empty_manifests_witness :
    (extract_metadata envNoIfc.avail envNoIfc.psAvail ⟨[okElem]⟩).1 = [] ∧
    WrittenFile.mk ["a", "metadata.json"] "\x7b\x7d" ∈
      (mainBuild envNoIfc ["b.ifc", "a.ifc"]).1 :=
  ⟨(C6_unavailable_support_empty_manifests envNoIfc ["b.ifc", "a.ifc"]
      rfl).1 ⟨[okElem]⟩,
   (C6_unavailable_support_empty_manifests envNoIfc ["b.ifc", "a.ifc"]
      rfl).2 "a.ifc" (by simp)⟩

/-- C8.  The global manifest has exactly one entry per processed input
file — the entry list is the per-file entry map over a permutation of the
input list, so its length equals the number of input files — and the
entries are ordered by source filename, lexicographically by code point,
irrespective of processing order: permuting the input list leaves the
whole build output unchanged. -/
theorem C8_manifest_sorted_one_entry_per_file (env : Env)
    (files : List String) :
    (mainBuild env files).2 =
      (sortFiles files).map (fun f => ⟨stem f, slugify (stem f), env.now⟩) ∧
    (sortFiles files).Perm files ∧
    List.Pairwise fileLeRel (sortFiles files) ∧
    ((mainBuild env files).2).length = files.length ∧
    (∀ files2 : List String, files2.Perm files →
      mainBuild env files2 = mainBuild env files) := by
  refine ⟨rfl, sortFiles_perm files, sortFiles_sorted files, ?_, ?_⟩
  · show ((sortFiles files).map _).length = _
    rw [List.length_map]
    exact (sortFiles_perm files).length_eq
  · intro files2 h2
    unfold mainBuild
    rw [sortFiles_congr_perm h2]

theorem C8_manifest_sorted_one_entry_per_file_witness :
    mainBuild envNoIfc ["a.ifc", "b.ifc"] =
      mainBuild envNoIfc ["b.ifc", "a.ifc"] ∧
    (mainBuild envNoIfc ["b.ifc", "a.ifc"]).2 =
      [⟨"a", "a", "2026-10-12 00:00 UTC"⟩, ⟨"b", "b", "2026-10-12 00:00 UTC"⟩] :=
  ⟨(C8_manifest_sorted_one_entry_per_file envNoIfc ["b.ifc", "a.ifc"]).2.2.2.2
      ["a.ifc", "b.ifc"] (by decide),
   (C8_manifest_sorted_one_entry_per_file envNoIfc ["b.ifc", "a.ifc"]).1.trans
      (by rfl)⟩

theorem two_le_countP {α : Type} [DecidableEq α] {l : List α} {p : α → Bool}
    {a b : α} (h1 : a ∈ l) (h2 : b ∈ l) (hne : a ≠ b)
    (hpa : p a = true) (hpb : p b = true) : 2 ≤ l.countP p := by
  rw [List.Perm.countP_eq p (List.perm_cons_erase h1), List.countP_cons]
  have hb : b ∈ l.erase a := (List.mem_erase_of_ne hne.symm).mpr h2
  have hpos : 0 < (l.erase a).countP p := List.countP_pos_iff.mpr ⟨b, hb, hpb⟩
  rw [if_pos hpa]
  omega

/-- C10.  When two distinct input files slugify to the same slug the
build neither fails (it is a total function of the inputs) nor
disambiguates: the global manifest carries two entries with that same
path value, and in a two-file run both models are processed into the
same slug-named directory, where the later-processed model's asset,
metadata file and viewer page are the final content of the shared
paths. -/
theorem C10_slug_collision_no_disambiguation (env : Env) (f1 f2 : String)
    (hne : f1 ≠ f2) (hslug : slugify (stem f1) = slugify (stem f2)) :
    (∀ files : List String, f1 ∈ files → f2 ∈ files →
      2 ≤ (mainBuild env files).2.countP
        (fun en => en.slug = slugify (stem f1))) ∧
    (fileLeRel f1 f2 →
      (mainBuild env [f1, f2]).2 =
        [⟨stem f1, slugify (stem f1), env.now⟩,
         ⟨stem f2, slugify (stem f1), env.now⟩] ∧
      lastContent [slugify (stem f1), "metadata.json"]
          (mainBuild env [f1, f2]).1 =
        some (serializeManifest
          (extract_metadata env.avail env.psAvail (env.modelOf f2)).1) ∧
      lastContent [slugify (stem f1), "model.glb"]
          (mainBuild env [f1, f2]).1 = some (env.assetOf f2) ∧
      lastContent [slugify (stem f1), "index.html"]
          (mainBuild env [f1, f2]).1 = some env.viewerTemplate) := by
  constructor
  · intro files hf1 hf2
    show 2 ≤ ((sortFiles files).map fun f => (processModel env f).2).countP _
    rw [List.countP_map]
    refine two_le_countP ((sortFiles_perm files).mem_iff.mpr hf1)
      ((sortFiles_perm files).mem_iff.mpr hf2) hne ?_ ?_
    · simp [processModel]
    · simp [processModel, hslug]
  · intro hle
    have hsort : sortFiles [f1, f2] = [f1, f2] := by
      unfold sortFiles
      simp [List.insertionSort, List.orderedInsert, hle]
    refine ⟨?_, ?_, ?_, ?_⟩
    · simp [mainBuild, hsort, processModel, hslug]
    · simp [mainBuild, hsort, processModel, lastContent, List.filter, hslug]
    · simp [mainBuild, hsort, processModel, lastContent, List.filter, hslug]
    · simp [mainBuild, hsort, processModel, lastContent, List.filter, hslug]

theorem C10_slug_collision_no_disambiguation_witness :
    2 ≤ (mainBuild envNoIfc ["a b.ifc", "a-b.ifc"]).2.countP
        (fun en => en.slug = slugify (stem "a b.ifc")) ∧
    lastContent [slugify (stem "a b.ifc"), "model.glb"]
        (mainBuild envNoIfc ["a b.ifc", "a-b.ifc"]).1 =
      some (envNoIfc.assetOf "a-b.ifc") :=
  ⟨(C10_slug_collision_no_disambiguation envNoIfc "a b.ifc" "a-b.ifc"
      (by decide) (by rfl)).1 ["a b.ifc", "a-b.ifc"] (by simp) (by simp),
   ((C10_slug_collision_no_disambiguation envNoIfc "a b.ifc" "a-b.ifc"
      (by decide) (by rfl)).2 (by rfl)).2.2.1⟩

end BuildSite
